import Mathlib

/-!
Shallow embedding of the dependency-closure computation and topological
ordering of `catkin_pkg` (`src/catkin_pkg/topological_order.py`, plus the
pieces of `src/catkin_pkg/package.py` it reads), together with proofs of the
specification claims about them.

Python dicts are modelled as insertion-ordered association lists
`List (String × _)`; Python sets as `Finset String`; `None`-able values as
`Option _`; raised exceptions as `Except PyError _`.
-/

namespace CatkinPkg

/-- `Dependency` (`package.py`): the slots read by the ordering core and by
`Dependency.__eq__`. -/
structure Dependency where
  name : String
  version_lt : Option String
  version_lte : Option String
  version_eq : Option String
  version_gte : Option String
  version_gt : Option String
  condition : Option String
  evaluated_condition : Option Bool
deriving DecidableEq

/-- A dependency carrying only a target name, all other slots `None`
(`Dependency.__init__` defaults). -/
def mkDependency (name : String) : Dependency :=
  ⟨name, none, none, none, none, none, none, none⟩

/-- `Dependency.__eq__`: compares every slot except `evaluated_condition`. -/
def dependencyEq (a b : Dependency) : Bool :=
  a.name == b.name && a.version_lt == b.version_lt && a.version_lte == b.version_lte &&
  a.version_eq == b.version_eq && a.version_gte == b.version_gte &&
  a.version_gt == b.version_gt && a.condition == b.condition

/-- `Export` (`package.py`): the slots read by the ordering core
(`tagname`, `content`); `attributes` and `evaluated_condition` are unused
there and omitted. -/
structure Export where
  tagname : String
  content : Option String
deriving DecidableEq

/-- `Package` (`package.py`): the slots read by the ordering core; the
remaining slots (version, maintainers, ...) are never consulted by it and
are omitted. -/
structure Package where
  name : String
  build_depends : List Dependency
  buildtool_depends : List Dependency
  build_export_depends : List Dependency
  exec_depends : List Dependency
  exports : List Export
deriving DecidableEq

/-- One step of the `run_depends` accumulation: `if d not in run_depends:
run_depends.append(d)`, where `in` is Python list membership via
`Dependency.__eq__`. -/
def runDependsStep (acc : List Dependency) (d : Dependency) : List Dependency :=
  if acc.any (fun e => dependencyEq d e) then acc else acc ++ [d]

/-- `Package.__getattr__` for `run_depends`: walk
`exec_depends + build_export_depends` appending each element not already
present. -/
def Package.run_depends (p : Package) : List Dependency :=
  (p.exec_depends ++ p.build_export_depends).foldl runDependsStep []

/-- The exceptions the embedded code can raise. -/
inductive PyError where
  | indexError
  | runtimeError (msg : String)
deriving DecidableEq

/-- One element of the result list of `_sort_decorated_packages`: a normal
entry carries a `Package`, the cycle sentinel carries the joined name string. -/
inductive TopoPayload where
  | pkg (p : Package)
  | cycleNames (names : String)
deriving DecidableEq

/-- Result entries are pairs `[path, package]` or `[None, names]`; the first
component models `path` / `None`. -/
abbrev TopoEntry := Option String × TopoPayload

/-- `_PackageDecorator`: the wrapped package plus the computed fields. -/
structure PackageDecorator where
  package : Package
  path : String
  is_metapackage : Bool
  message_generator : Option String
  depends_for_topological_order : Finset String
deriving DecidableEq

/-- `_PackageDecorator.__init__`. `depends_for_topological_order` starts as
`∅` standing for Python's `None`; `calculate_depends_for_topological_order`
overwrites it (starting from the empty set) before any read. -/
def mkPackageDecorator (package : Package) (path : String) : PackageDecorator :=
  { package := package
    path := path
    is_metapackage := (package.exports.map Export.tagname).contains "metapackage"
    message_generator :=
      (((package.exports.filter (fun e => e.tagname == "message_generator")).map
        Export.content).head?).join
    depends_for_topological_order := ∅ }

/-- Python truthiness of an optional string (`if decorator.message_generator:`):
`None` and the empty string are falsy. -/
def pyTruthyStr : Option String → Bool
  | none => false
  | some s => !(s == "")

/-- Python truthiness of an optional list (`if whitelisted:`): `None` and the
empty list are falsy. -/
def pyTruthyList : Option (List String) → Bool
  | none => false
  | some l => !l.isEmpty

/-- `packages[name]` on the decorator dict, returning `None` when absent. -/
def lookupDecorator (n : String) (pkgs : List (String × PackageDecorator)) :
    Option PackageDecorator :=
  (pkgs.find? (fun e => e.1 == n)).map Prod.snd

/-- `_PackageDecorator._add_recursive_run_depends`, with an explicit fuel
parameter standing in for Python's recursion; the `0` branch is never reached
when the fuel is at least `pkgs.length + 1` (proved below). The body mirrors
the source: add the own name, precompute the filtered run-dependency names
(known packages not already in the set at that moment), then recurse through
them, threading the growing set. -/
def addRunDependsFuel (pkgs : List (String × PackageDecorator)) :
    Nat → PackageDecorator → Finset String → Finset String
  | 0, _, s => s
  | fuel+1, d, s =>
    let s1 : Finset String := insert d.package.name s
    let names : List String := (d.package.run_depends.map Dependency.name).filter
      (fun n => (lookupDecorator n pkgs).isSome && !(decide (n ∈ s1)))
    names.foldl (fun acc n =>
      match lookupDecorator n pkgs with
      | some q => addRunDependsFuel pkgs fuel q acc
      | none => acc) s1

/-- The seed names of `calculate_depends_for_topological_order`: names of
direct build- and buildtool-dependencies that are known packages
("skip external dependencies"). -/
def seedNames (pkgs : List (String × PackageDecorator)) (d : PackageDecorator) : List String :=
  ((d.package.build_depends ++ d.package.buildtool_depends).map Dependency.name).filter
    (fun n => (lookupDecorator n pkgs).isSome)

/-- `calculate_depends_for_topological_order` at a given fuel: start from the
empty set and fold `_add_recursive_run_depends` over the seeds. -/
def calculateDependsFuel (pkgs : List (String × PackageDecorator)) (fuel : Nat)
    (d : PackageDecorator) : Finset String :=
  (seedNames pkgs d).foldl
    (fun s n =>
      match lookupDecorator n pkgs with
      | some q => addRunDependsFuel pkgs fuel q s
      | none => s) ∅

/-- `_PackageDecorator.calculate_depends_for_topological_order`: the fuel
`pkgs.length + 1` suffices for the recursion to run to completion. -/
def calculate_depends_for_topological_order (pkgs : List (String × PackageDecorator))
    (d : PackageDecorator) : Finset String :=
  calculateDependsFuel pkgs (pkgs.length + 1) d

/-- Lexicographic comparison of character lists by code point, structurally
recursive so that concrete runs evaluate. -/
def charListLe : List Char → List Char → Bool
  | [], _ => true
  | _ :: _, [] => false
  | a :: as, b :: bs =>
    if a < b then true
    else if b < a then false
    else charListLe as bs

/-- Python's string comparison: lexicographic by Unicode code point, a shorter
string preceding its extensions. -/
def strLe (a b : String) : Bool := charListLe a.data b.data

/-- Python `sorted` / `list.sort` on strings: lexicographic order. -/
def sortStrings (l : List String) : List String :=
  List.insertionSort (fun a b => strLe a b = true) l

/-- The ready message generators: names of packages with an empty (falsy)
pending closure whose `message_generator` is truthy, in dict order. -/
def readyMessageGenerators (ps : List (String × PackageDecorator)) : List String :=
  (ps.filter (fun e =>
    decide (e.2.depends_for_topological_order = ∅) && pyTruthyStr e.2.message_generator)).map
    Prod.fst

/-- The ready non-generators: empty pending closure, falsy `message_generator`. -/
def readyNonMessageGenerators (ps : List (String × PackageDecorator)) : List String :=
  (ps.filter (fun e =>
    decide (e.2.depends_for_topological_order = ∅) && !(pyTruthyStr e.2.message_generator))).map
    Prod.fst

/-- `del packages[name]` on the decorator dict (keys are unique names). -/
def eraseKey (n : String) (ps : List (String × PackageDecorator)) :
    List (String × PackageDecorator) :=
  ps.filter (fun e => !(e.1 == n))

/-- The closure-shrinking pass at the end of each loop iteration: remove the
emitted name from every remaining pending closure. -/
def removeDep (n : String) (ps : List (String × PackageDecorator)) :
    List (String × PackageDecorator) :=
  ps.map (fun e =>
    (e.1, { e.2 with depends_for_topological_order :=
      e.2.depends_for_topological_order.erase n }))

/-- The candidate pool of one loop iteration: the ready message generators
when there are any (`if message_generators: names = message_generators`),
otherwise the ready non-generators. -/
def candidatePool (ps : List (String × PackageDecorator)) : List String :=
  if (readyMessageGenerators ps).isEmpty then readyNonMessageGenerators ps
  else readyMessageGenerators ps

/-- The loop of `_sort_decorated_packages`, fuelled by the number of remaining
packages (each normal iteration removes exactly one entry, so
`ps.length` fuel always suffices; the `0`/`none` fallbacks are unreachable,
proved below). -/
def sortAux : Nat → List (String × PackageDecorator) → List TopoEntry
  | 0, _ => []
  | fuel+1, ps =>
    if ps.isEmpty then []
    else
      let names := candidatePool ps
      match (sortStrings names).head? with
      | none =>
        [(none, TopoPayload.cycleNames (String.intercalate ", " (sortStrings (ps.map Prod.fst))))]
      | some n =>
        match lookupDecorator n ps with
        | some d => (some d.path, TopoPayload.pkg d.package) :: sortAux fuel (removeDep n (eraseKey n ps))
        | none => []

/-- `_sort_decorated_packages`. -/
def _sort_decorated_packages (ps : List (String × PackageDecorator)) : List TopoEntry :=
  sortAux ps.length ps

/-- Line 84 compares a `Package` (a value of the caller's mapping) directly
with a `_PackageDecorator` via `==`. Neither class defines `__eq__`, and a
package object is never the identical object as a decorator, so Python's
default identity comparison yields `False` for every pair. -/
def packageEqDecorator (_v : Package) (_d : PackageDecorator) : Bool := false

/-- The filter-and-decorate loop of `topological_order_packages`: skip
non-whitelisted and blacklisted packages, reject duplicate names, decorate the
rest. Evaluating `path_with_same_name[0]` on the always-empty list raises
`IndexError` before the intended `RuntimeError` is constructed. -/
def buildDecoratorsAux (allPackages : List (String × Package)) (wl bl : Option (List String)) :
    List (String × Package) → List (String × PackageDecorator) →
    Except PyError (List (String × PackageDecorator))
  | [], acc => Except.ok acc
  | (path, package) :: rest, acc =>
    if pyTruthyList wl && !((wl.getD []).contains package.name) then
      buildDecoratorsAux allPackages wl bl rest acc
    else if pyTruthyList bl && (bl.getD []).contains package.name then
      buildDecoratorsAux allPackages wl bl rest acc
    else
      match (acc.map Prod.snd).filter (fun d => d.package.name == package.name) with
      | [] => buildDecoratorsAux allPackages wl bl rest
          (acc ++ [(package.name, mkPackageDecorator package path)])
      | d0 :: _ =>
        match (allPackages.filter (fun pv => packageEqDecorator pv.2 d0)).map Prod.fst with
        | [] => Except.error PyError.indexError
        | p0 :: _ => Except.error (PyError.runtimeError
            ("Two packages with the same name \"" ++ package.name ++
              "\" in the workspace:\n- " ++ p0 ++ "\n- " ++ path))

/-- Recompute every decorator's pending closure against the full decorator
dict (`calculate_depends_for_topological_order` only reads the wrapped
packages of the dict, never the closures, so the in-place Python update is
order-independent and equals this one-shot map). -/
def decorateAll (decorators : List (String × PackageDecorator)) :
    List (String × PackageDecorator) :=
  decorators.map (fun e =>
    (e.1, { e.2 with depends_for_topological_order :=
      calculate_depends_for_topological_order decorators e.2 }))

/-- `topological_order_packages`. -/
def topological_order_packages (packages : List (String × Package))
    (whitelisted blacklisted : Option (List String)) :
    Except PyError (List TopoEntry) :=
  match buildDecoratorsAux packages whitelisted blacklisted packages [] with
  | Except.error e => Except.error e
  | Except.ok decorators => Except.ok (_sort_decorated_packages (decorateAll decorators))

/-! ### Relations, auxiliary definitions and concrete fixtures -/

/-- The set of known package names (the keys of the decorator dict). -/
def keyFinset (pkgs : List (String × PackageDecorator)) : Finset String :=
  (pkgs.map Prod.fst).toFinset

/-- One effective run-time dependency step between known packages: `a`'s
decorator lists `b` among its `run_depends` target names and `b` is itself a
known package. -/
def runStep (pkgs : List (String × PackageDecorator)) (a b : String) : Prop :=
  ∃ q, lookupDecorator a pkgs = some q ∧
    b ∈ q.package.run_depends.map Dependency.name ∧
    (lookupDecorator b pkgs).isSome = true

/-- The recursion step of `_add_recursive_run_depends` on one dependency name
(recurse when it is a known package, otherwise leave the set unchanged). -/
def addRunStep (pkgs : List (String × PackageDecorator)) (fuel : Nat)
    (acc : Finset String) (n : String) : Finset String :=
  match lookupDecorator n pkgs with
  | some q => addRunDependsFuel pkgs fuel q acc
  | none => acc

/-- `s` is closed under known run-dependency steps, except at names in `E`
(the exception set collects names whose expansion is still pending). -/
def ClosedExcept (pkgs : List (String × PackageDecorator)) (s : Finset String)
    (E : Set String) : Prop :=
  ∀ n ∈ s, n ∉ E → ∀ b, runStep pkgs n b → b ∈ s

/-- Modelled from the spec: decoration of the underlay set.  The repository's
`topological_order_packages` also accepts an optional `underlay_packages`
mapping (its own test `test_topological_order_packages_with_underlay` passes
one), but that handling is absent from the `topological_order.py` of this
tree.  Per the spec the underlay is disjoint from the working set, so a name
already decorated from the working set (or an earlier underlay entry) is
skipped. -/
def underlayDecorators (decorators : List (String × PackageDecorator))
    (underlay : List (String × Package)) : List (String × PackageDecorator) :=
  underlay.foldl (fun acc e =>
    if (lookupDecorator e.2.name decorators).isSome || (lookupDecorator e.2.name acc).isSome
    then acc
    else acc ++ [(e.2.name, mkPackageDecorator e.2 e.1)]) []

/-- Modelled from the spec: keep an output entry unless it is a package from
the underlay ("never emitted in the output order"). -/
def entryNotFromUnderlay (underlayNames : List String) (e : TopoEntry) : Bool :=
  match e.2 with
  | TopoPayload.pkg p => !(decide (p.name ∈ underlayNames))
  | TopoPayload.cycleNames _ => true

/-- Modelled from the spec: `resolve_order` with an underlay — filter and
decorate the working set exactly as in the source (allow/deny filters never
touch the underlay), decorate the underlay, compute every pending closure
against the combined dict (underlay packages visible as dependency targets),
schedule the combined dict, and emit only working-set entries. -/
def topological_order_packages_with_underlay (packages : List (String × Package))
    (whitelisted blacklisted : Option (List String))
    (underlay : List (String × Package)) : Except PyError (List TopoEntry) :=
  match buildDecoratorsAux packages whitelisted blacklisted packages [] with
  | Except.error e => Except.error e
  | Except.ok decorators =>
    Except.ok ((_sort_decorated_packages
        (decorateAll (decorators ++ underlayDecorators decorators underlay))).filter
      (entryNotFromUnderlay ((underlayDecorators decorators underlay).map Prod.fst)))

/-- A package with a name, build/run dependency names, and no exports: the
shape used by the repository's own test fixtures. -/
def mkSimplePackage (name : String) (bd rd : List String) : Package :=
  { name := name
    build_depends := bd.map mkDependency
    buildtool_depends := []
    build_export_depends := []
    exec_depends := rd.map mkDependency
    exports := [] }

/-- Two otherwise-empty packages that share the name "pkg". -/
def c2Packages : List (String × Package) :=
  [("path/to/pkg1", mkSimplePackage "pkg" [] []),
   ("path/to/pkg2", mkSimplePackage "pkg" [] [])]

/-- Two dependencies on the same name "a", one with a version bound: not
`__eq__`-equal, so both survive the `run_depends` deduplication. -/
def c9Package : Package :=
  { name := "p"
    build_depends := []
    buildtool_depends := []
    build_export_depends := [{ mkDependency "a" with version_lt := some "1.0" }]
    exec_depends := [mkDependency "a"]
    exports := [] }

/-- A decorator fixture in the shape of the repository's own mock-based tests:
a plain package plus directly chosen computed fields. -/
def mkTestDecorator (name path : String) (deps : List String) (gen : Option String) :
    PackageDecorator :=
  { package := mkSimplePackage name [] []
    path := path
    is_metapackage := false
    message_generator := gen
    depends_for_topological_order := deps.toFinset }

/-- A three-package dependency cycle (every pending closure non-empty). -/
def c3Cycle : List (String × PackageDecorator) :=
  [("b", mkTestDecorator "b" "pb" ["c"] none),
   ("a", mkTestDecorator "a" "pa" ["b"] none),
   ("c", mkTestDecorator "c" "pc" ["a"] none)]

/-- Ready generator beside a ready non-generator with an alphabetically
smaller name. -/
def c4Pkgs : List (String × PackageDecorator) :=
  [("aaa", mkTestDecorator "aaa" "p-aaa" [] none),
   ("gen", mkTestDecorator "gen" "p-gen" [] (some "lang"))]

/-- Three ready non-generators with distinct names. -/
def c6Pkgs : List (String × PackageDecorator) :=
  [("mock3", mkTestDecorator "mock3" "p3" [] none),
   ("mock1", mkTestDecorator "mock1" "p1" [] none),
   ("mock2", mkTestDecorator "mock2" "p2" [] none)]

/-- A package whose build dependency "ext" is not in the working set. -/
def c7Pkgs : List (String × PackageDecorator) :=
  [("a", mkPackageDecorator (mkSimplePackage "a" ["ext"] []) "pa")]

/-- A run-time dependency cycle `a ↔ b` reached from `x`'s build dependency. -/
def c8Pkgs : List (String × PackageDecorator) :=
  [("a", mkPackageDecorator (mkSimplePackage "a" [] ["b"]) "pa"),
   ("b", mkPackageDecorator (mkSimplePackage "b" [] ["a"]) "pb"),
   ("x", mkPackageDecorator (mkSimplePackage "x" ["a"] []) "px")]

/-- `b` build-depends on `a`; both ready non-generators after closure setup. -/
def c1Pkgs : List (String × PackageDecorator) :=
  [("b", mkTestDecorator "b" "pb" ["a"] none),
   ("a", mkTestDecorator "a" "pa" [] none)]

/-- Working set `{a (build-depends b), c}`, underlay `{b (build-depends c)}`:
the shape of `test_topological_order_packages_with_underlay`. -/
def c5Packages : List (String × Package) :=
  [("pa", mkSimplePackage "a" ["b"] []), ("pc", mkSimplePackage "c" [] [])]

def c5Underlay : List (String × Package) :=
  [("pb", mkSimplePackage "b" ["c"] [])]

def c5Decs : List (String × PackageDecorator) :=
  [("a", mkPackageDecorator (mkSimplePackage "a" ["b"] []) "pa"),
   ("c", mkPackageDecorator (mkSimplePackage "c" [] []) "pc")]

/-! ### Basic lemmas about the dict model -/

/-- A name is found in the decorator dict exactly when it is one of the keys. -/
lemma lookupDecorator_isSome_iff {n : String} {ps : List (String × PackageDecorator)} :
    (lookupDecorator n ps).isSome = true ↔ n ∈ ps.map Prod.fst := by
  simp only [lookupDecorator, Option.isSome_map', List.find?_isSome, List.mem_map]
  constructor
  · rintro ⟨e, he, hq⟩
    exact ⟨e, he, by simpa using hq⟩
  · rintro ⟨e, he, hq⟩
    exact ⟨e, he, by simpa using hq⟩

lemma lookupDecorator_eq_none_iff {n : String} {ps : List (String × PackageDecorator)} :
    lookupDecorator n ps = none ↔ n ∉ ps.map Prod.fst := by
  rw [← lookupDecorator_isSome_iff, Option.isSome_iff_ne_none]
  simp

/-- A successful lookup returns one of the dict's entries, under its key. -/
lemma lookupDecorator_mem {n : String} {ps : List (String × PackageDecorator)}
    {d : PackageDecorator} (h : lookupDecorator n ps = some d) : (n, d) ∈ ps := by
  simp only [lookupDecorator, Option.map_eq_some'] at h
  obtain ⟨e, he, hd⟩ := h
  have hkey : e.1 = n := by simpa using List.find?_some he
  have hmem : e ∈ ps := List.mem_of_find?_eq_some he
  have : e = (n, d) := by
    cases e; simp_all
  simpa [this] using hmem

/-- With duplicate-free keys, membership determines the lookup result. -/
lemma lookupDecorator_of_mem_nodup {ps : List (String × PackageDecorator)}
    (hnd : (ps.map Prod.fst).Nodup) {n : String} {d : PackageDecorator}
    (h : (n, d) ∈ ps) : lookupDecorator n ps = some d := by
  induction ps with
  | nil => simp at h
  | cons e t ih =>
    simp only [List.map_cons, List.nodup_cons] at hnd
    rcases List.mem_cons.mp h with he | ht
    · simp [lookupDecorator, List.find?_cons, ← he]
    · have hne : e.1 ≠ n := by
        intro hkey
        exact hnd.1 (hkey ▸ (List.mem_map.mpr ⟨(n, d), ht, rfl⟩))
      have := ih hnd.2 ht
      simpa [lookupDecorator, List.find?_cons, hne] using this

/-- With duplicate-free keys, a key has at most one associated decorator. -/
lemma pair_unique_of_nodup {ps : List (String × PackageDecorator)}
    (hnd : (ps.map Prod.fst).Nodup) {n : String} {a b : PackageDecorator}
    (ha : (n, a) ∈ ps) (hb : (n, b) ∈ ps) : a = b := by
  have h1 := lookupDecorator_of_mem_nodup hnd ha
  have h2 := lookupDecorator_of_mem_nodup hnd hb
  rw [h1] at h2
  exact Option.some_injective _ h2

/-- `removeDep` does not change the keys. -/
lemma removeDep_keys (n : String) (ps : List (String × PackageDecorator)) :
    (removeDep n ps).map Prod.fst = ps.map Prod.fst := by
  simp [removeDep, List.map_map, Function.comp]

/-- Deleting a present key strictly shrinks the dict. -/
lemma eraseKey_length_lt {n : String} {ps : List (String × PackageDecorator)}
    (h : n ∈ ps.map Prod.fst) : (eraseKey n ps).length < ps.length := by
  obtain ⟨e, he, hkey⟩ := List.mem_map.mp h
  refine List.length_filter_lt_length_iff_exists.mpr ⟨e, he, ?_⟩
  simp [hkey]

lemma eraseKey_subset {n : String} {ps : List (String × PackageDecorator)} :
    ∀ e ∈ eraseKey n ps, e ∈ ps := fun _ he => (List.mem_filter.mp he).1

/-- Erasing a key preserves key-uniqueness. -/
lemma eraseKey_keys_nodup {n : String} {ps : List (String × PackageDecorator)}
    (hnd : (ps.map Prod.fst).Nodup) : ((eraseKey n ps).map Prod.fst).Nodup :=
  ((List.filter_sublist ps).map Prod.fst).nodup hnd

/-- Membership in `removeDep` unfolds to membership in the original dict. -/
lemma mem_removeDep {n : String} {ps : List (String × PackageDecorator)}
    {k : String} {d : PackageDecorator} (h : (k, d) ∈ removeDep n ps) :
    ∃ d₀, (k, d₀) ∈ ps ∧ d = { d₀ with depends_for_topological_order :=
      d₀.depends_for_topological_order.erase n } := by
  simp only [removeDep, List.mem_map] at h
  obtain ⟨e, he, heq⟩ := h
  obtain ⟨h1, h2⟩ := Prod.mk.injEq .. ▸ heq
  exact ⟨e.2, by simpa [← h1] using he, h2.symm⟩

/-! ### `run_depends` (claim C9) -/

lemma dependencyEq_iff {a b : Dependency} : dependencyEq a b = true ↔
    (a.name = b.name ∧ a.version_lt = b.version_lt ∧ a.version_lte = b.version_lte ∧
     a.version_eq = b.version_eq ∧ a.version_gte = b.version_gte ∧
     a.version_gt = b.version_gt ∧ a.condition = b.condition) := by
  simp [dependencyEq, and_assoc]

lemma dependencyEq_refl (a : Dependency) : dependencyEq a a = true := by
  simp [dependencyEq_iff]

lemma dependencyEq_symm (a b : Dependency) : dependencyEq a b = dependencyEq b a := by
  rw [Bool.eq_iff_iff, dependencyEq_iff, dependencyEq_iff]
  constructor <;>
    · rintro ⟨h1, h2, h3, h4, h5, h6, h7⟩
      exact ⟨h1.symm, h2.symm, h3.symm, h4.symm, h5.symm, h6.symm, h7.symm⟩

lemma runDependsFold_mono : ∀ (l acc : List Dependency),
    acc ⊆ l.foldl runDependsStep acc := by
  intro l
  induction l with
  | nil => intro acc; simp
  | cons d t ih =>
    intro acc
    refine List.Subset.trans ?_ (ih (runDependsStep acc d))
    unfold runDependsStep
    split
    · exact fun x hx => hx
    · exact fun x hx => List.mem_append.mpr (Or.inl hx)

lemma runDependsFold_subset : ∀ (l acc : List Dependency) (d : Dependency),
    d ∈ l.foldl runDependsStep acc → d ∈ acc ∨ d ∈ l := by
  intro l
  induction l with
  | nil => intro acc d h; exact Or.inl (by simpa using h)
  | cons c t ih =>
    intro acc d h
    rcases ih _ d h with h1 | h1
    · unfold runDependsStep at h1
      split at h1
      · exact Or.inl h1
      · rcases List.mem_append.mp h1 with h2 | h2
        · exact Or.inl h2
        · have : d = c := by simpa using h2
          subst this
          exact Or.inr (List.mem_cons_self _ _)
    · exact Or.inr (List.mem_cons_of_mem c h1)

lemma runDependsFold_covers : ∀ (l acc : List Dependency), ∀ d ∈ l,
    ∃ e ∈ l.foldl runDependsStep acc, dependencyEq d e = true := by
  intro l
  induction l with
  | nil => intro acc d h; simp at h
  | cons c t ih =>
    intro acc d h
    rcases List.mem_cons.mp h with rfl | ht
    · by_cases hany : (acc.any (fun e => dependencyEq d e)) = true
      · obtain ⟨e, he, heq⟩ := List.any_eq_true.mp hany
        have hstep : runDependsStep acc d = acc := by simp [runDependsStep, hany]
        exact ⟨e, runDependsFold_mono t _ (by rw [hstep]; exact he), heq⟩
      · have hstep : runDependsStep acc d = acc ++ [d] := by simp [runDependsStep, hany]
        exact ⟨d, runDependsFold_mono t _ (by rw [hstep]; simp), dependencyEq_refl d⟩
    · exact ih (runDependsStep acc c) d ht

lemma runDependsFold_pairwise : ∀ (l acc : List Dependency),
    acc.Pairwise (fun a b => dependencyEq a b = false) →
    (l.foldl runDependsStep acc).Pairwise (fun a b => dependencyEq a b = false) := by
  intro l
  induction l with
  | nil => intro acc h; simpa using h
  | cons c t ih =>
    intro acc h
    apply ih
    by_cases hany : (acc.any (fun e => dependencyEq c e)) = true
    · simpa [runDependsStep, hany] using h
    · have hstep : runDependsStep acc c = acc ++ [c] := by simp [runDependsStep, hany]
      rw [hstep, List.pairwise_append]
      refine ⟨h, by simp, ?_⟩
      intro a ha b hb
      have hb' : b = c := by simpa using hb
      subst hb'
      have hall : ∀ e ∈ acc, ¬ dependencyEq b e = true := by
        simpa [List.any_eq_true] using hany
      rw [dependencyEq_symm]
      exact Bool.eq_false_iff.mpr (hall a ha)

/-- C9 fails as stated: `run_depends` collapses duplicates by
`Dependency.__eq__` (whole-record equality except `evaluated_condition`), not
by name, so a package with an unversioned `exec_depend` on "a" and a versioned
`build_export_depend` on "a" has two `run_depends` entries with the same
target name. -/
theorem C9_counterexample :
    c9Package.run_depends.map Dependency.name = ["a", "a"] ∧
    ¬ (c9Package.run_depends.map Dependency.name).Nodup := by
  exact ⟨rfl, by decide⟩

/-- C9 amended: for every package descriptor, `run_depends` equals the union
of its execution dependencies and its build-export dependencies with
duplicates collapsed by whole-dependency equality (`Dependency.__eq__`, which
compares every slot except `evaluated_condition`): every entry comes from the
concatenation, every element of the concatenation is represented by an
`__eq__`-equal entry, and no two entries are `__eq__`-equal — but two entries
may share a target name when they differ in another slot. -/
theorem C9_run_depends_dedups_by_full_equality (p : Package) :
    (∀ d ∈ p.run_depends, d ∈ p.exec_depends ++ p.build_export_depends) ∧
    (∀ d ∈ p.exec_depends ++ p.build_export_depends,
      ∃ e ∈ p.run_depends, dependencyEq d e = true) ∧
    p.run_depends.Pairwise (fun a b => dependencyEq a b = false) := by
  refine ⟨?_, ?_, ?_⟩
  · intro d hd
    rcases runDependsFold_subset _ [] d hd with h | h
    · simp at h
    · exact h
  · intro d hd
    exact runDependsFold_covers _ [] d hd
  · exact runDependsFold_pairwise _ [] (by simp)

/-! ### Empty allow/deny filters (claim C10) -/

lemma buildDecoratorsAux_whitelist_empty (all : List (String × Package))
    (bl : Option (List String)) :
    ∀ (rest : List (String × Package)) (acc : List (String × PackageDecorator)),
    buildDecoratorsAux all (some []) bl rest acc = buildDecoratorsAux all none bl rest acc := by
  intro rest
  induction rest with
  | nil => intro acc; rfl
  | cons e rest ih =>
    intro acc
    obtain ⟨path, package⟩ := e
    simp only [buildDecoratorsAux]
    have h1 : pyTruthyList (some []) = false := rfl
    have h2 : pyTruthyList (none : Option (List String)) = false := rfl
    rw [h1, h2]
    simp only [Bool.false_and, Bool.false_eq_true, if_false]
    split
    · exact ih _
    · split
      · exact ih _
      · rfl

lemma buildDecoratorsAux_blacklist_empty (all : List (String × Package))
    (wl : Option (List String)) :
    ∀ (rest : List (String × Package)) (acc : List (String × PackageDecorator)),
    buildDecoratorsAux all wl (some []) rest acc = buildDecoratorsAux all wl none rest acc := by
  intro rest
  induction rest with
  | nil => intro acc; rfl
  | cons e rest ih =>
    intro acc
    obtain ⟨path, package⟩ := e
    simp only [buildDecoratorsAux]
    have h1 : pyTruthyList (some []) = false := rfl
    have h2 : pyTruthyList (none : Option (List String)) = false := rfl
    rw [h1, h2]
    simp only [Bool.false_and, Bool.false_eq_true, if_false]
    split
    · exact ih _
    · split
      · exact ih _
      · rfl

/-- C10: an empty whitelist behaves exactly like no whitelist (the Python
guard is `if whitelisted and ...`, and an empty list is falsy), and likewise
an empty blacklist excludes nothing: the resolver's result is identical. -/
theorem C10_empty_filters_equal_none :
    (∀ (packages : List (String × Package)) (bl : Option (List String)),
      topological_order_packages packages (some []) bl =
        topological_order_packages packages none bl) ∧
    (∀ (packages : List (String × Package)) (wl : Option (List String)),
      topological_order_packages packages wl (some []) =
        topological_order_packages packages wl none) := by
  constructor
  · intro packages bl
    unfold topological_order_packages
    rw [buildDecoratorsAux_whitelist_empty]
  · intro packages wl
    unfold topological_order_packages
    rw [buildDecoratorsAux_blacklist_empty]

/-! ### Duplicate names (claim C2) -/

/-- C2 (code bug): on a working set with two surviving packages named "pkg"
the resolution does fail before producing any order, but with `IndexError`
from `path_with_same_name[0]` (line 85), not the documented data-integrity
`RuntimeError` reporting both keys and the shared name: line 84 compares each
`Package` value of the input mapping against a `_PackageDecorator` — neither
class defines `__eq__`, so the comparison is always `False` and the list of
conflicting keys is empty.  The repository's own test
`test_topological_order_packages_with_duplicates` expects the `RuntimeError`
message. -/
theorem C2_duplicate_name_raises_index_error :
    topological_order_packages c2Packages none none = Except.error PyError.indexError := rfl

/-! ### The candidate pool of a loop iteration -/

lemma mem_readyMessageGenerators {ps : List (String × PackageDecorator)} {n : String} :
    n ∈ readyMessageGenerators ps ↔
    ∃ d, (n, d) ∈ ps ∧ d.depends_for_topological_order = ∅ ∧
      pyTruthyStr d.message_generator = true := by
  simp only [readyMessageGenerators, List.mem_map, List.mem_filter]
  constructor
  · rintro ⟨e, ⟨he, hcond⟩, rfl⟩
    simp only [Bool.and_eq_true, decide_eq_true_eq] at hcond
    exact ⟨e.2, by simpa using he, hcond.1, hcond.2⟩
  · rintro ⟨d, hd, h1, h2⟩
    exact ⟨(n, d), ⟨hd, by simp [h1, h2]⟩, rfl⟩

lemma mem_readyNonMessageGenerators {ps : List (String × PackageDecorator)} {n : String} :
    n ∈ readyNonMessageGenerators ps ↔
    ∃ d, (n, d) ∈ ps ∧ d.depends_for_topological_order = ∅ ∧
      pyTruthyStr d.message_generator = false := by
  simp only [readyNonMessageGenerators, List.mem_map, List.mem_filter]
  constructor
  · rintro ⟨e, ⟨he, hcond⟩, rfl⟩
    simp only [Bool.and_eq_true, decide_eq_true_eq, Bool.not_eq_true'] at hcond
    exact ⟨e.2, by simpa using he, hcond.1, hcond.2⟩
  · rintro ⟨d, hd, h1, h2⟩
    exact ⟨(n, d), ⟨hd, by simp [h1, h2]⟩, rfl⟩

/-- The candidate pool is empty exactly when no remaining package is ready. -/
lemma candidatePool_eq_nil_iff {ps : List (String × PackageDecorator)} :
    candidatePool ps = [] ↔ ∀ e ∈ ps, e.2.depends_for_topological_order ≠ ∅ := by
  constructor
  · intro h e he hdep
    have hmg : readyMessageGenerators ps = [] := by
      unfold candidatePool at h
      split at h
      · exact List.isEmpty_iff.mp (by assumption)
      · exact h
    have hnmg : readyNonMessageGenerators ps = [] := by
      unfold candidatePool at h
      split at h
      · exact h
      · rename_i hmg'
        exact absurd (hmg ▸ List.isEmpty_nil) (by simpa using hmg')
    cases htr : pyTruthyStr e.2.message_generator with
    | true =>
      have : e.1 ∈ readyMessageGenerators ps :=
        mem_readyMessageGenerators.mpr ⟨e.2, by simpa using he, hdep, htr⟩
      simp [hmg] at this
    | false =>
      have : e.1 ∈ readyNonMessageGenerators ps :=
        mem_readyNonMessageGenerators.mpr ⟨e.2, by simpa using he, hdep, htr⟩
      simp [hnmg] at this
  · intro h
    have hmg : readyMessageGenerators ps = [] := by
      rw [List.eq_nil_iff_forall_not_mem]
      intro n hn
      obtain ⟨d, hd, h1, _⟩ := mem_readyMessageGenerators.mp hn
      exact h (n, d) hd h1
    have hnmg : readyNonMessageGenerators ps = [] := by
      rw [List.eq_nil_iff_forall_not_mem]
      intro n hn
      obtain ⟨d, hd, h1, _⟩ := mem_readyNonMessageGenerators.mp hn
      exact h (n, d) hd h1
    simp [candidatePool, hmg, hnmg]

/-- Every name of the candidate pool is a key of a ready decorator. -/
lemma mem_candidatePool {ps : List (String × PackageDecorator)} {n : String}
    (h : n ∈ candidatePool ps) :
    ∃ d, (n, d) ∈ ps ∧ d.depends_for_topological_order = ∅ := by
  unfold candidatePool at h
  split at h
  · obtain ⟨d, hd, h1, _⟩ := mem_readyNonMessageGenerators.mp h
    exact ⟨d, hd, h1⟩
  · obtain ⟨d, hd, h1, _⟩ := mem_readyMessageGenerators.mp h
    exact ⟨d, hd, h1⟩

/-! ### `sorted` on strings -/

lemma charListLe_refl : ∀ l : List Char, charListLe l l = true := by
  intro l
  induction l with
  | nil => rfl
  | cons a as ih => simp [charListLe, ih]

lemma charListLe_total : ∀ as bs : List Char,
    charListLe as bs = true ∨ charListLe bs as = true := by
  intro as
  induction as with
  | nil => intro bs; exact Or.inl rfl
  | cons a as ih =>
    intro bs
    cases bs with
    | nil => exact Or.inr rfl
    | cons b bs =>
      rcases lt_trichotomy a b with h | h | h
      · exact Or.inl (by simp [charListLe, h])
      · subst h
        rcases ih bs with h' | h'
        · exact Or.inl (by simp [charListLe, h'])
        · exact Or.inr (by simp [charListLe, h'])
      · exact Or.inr (by simp [charListLe, h])

lemma charListLe_trans : ∀ as bs cs : List Char,
    charListLe as bs = true → charListLe bs cs = true → charListLe as cs = true := by
  intro as
  induction as with
  | nil => intro bs cs _ _; rfl
  | cons a as ih =>
    intro bs cs h1 h2
    cases bs with
    | nil => simp [charListLe] at h1
    | cons b bs =>
      cases cs with
      | nil => simp [charListLe] at h2
      | cons c cs =>
        rcases lt_trichotomy a b with hab | hab | hab
        · rcases lt_trichotomy b c with hbc | hbc | hbc
          · simp [charListLe, lt_trans hab hbc]
          · subst hbc; simp [charListLe, hab]
          · simp [charListLe, hbc, not_lt_of_lt hbc] at h2
        · subst hab
          rcases lt_trichotomy a c with hac | hac | hac
          · simp [charListLe, hac]
          · subst hac
            simp only [charListLe, lt_irrefl, if_false] at h1 h2 ⊢
            exact ih bs cs h1 h2
          · simp [charListLe, hac, not_lt_of_lt hac] at h2
        · simp [charListLe, hab, not_lt_of_lt hab] at h1

instance : IsTotal String (fun a b => strLe a b = true) :=
  ⟨fun a b => charListLe_total a.data b.data⟩

instance : IsTrans String (fun a b => strLe a b = true) :=
  ⟨fun a b c => charListLe_trans a.data b.data c.data⟩

lemma mem_sortStrings {l : List String} {n : String} : n ∈ sortStrings l ↔ n ∈ l :=
  (List.perm_insertionSort _ l).mem_iff

lemma sortStrings_eq_nil_iff {l : List String} : sortStrings l = [] ↔ l = [] := by
  constructor
  · intro h
    have hp := List.perm_insertionSort (fun a b : String => strLe a b = true) l
    rw [sortStrings] at h
    rw [h] at hp
    exact hp.symm.eq_nil
  · rintro rfl
    rfl

/-- The head of the sorted name list is a least element. -/
lemma sortStrings_head_le {l : List String} {n : String} {t : List String}
    (h : sortStrings l = n :: t) : ∀ m ∈ l, strLe n m = true := by
  have hs : List.Sorted (fun a b : String => strLe a b = true) (sortStrings l) :=
    List.sorted_insertionSort _ l
  intro m hm
  have hmem : m ∈ sortStrings l := mem_sortStrings.mpr hm
  rw [h] at hmem hs
  rcases List.mem_cons.mp hmem with rfl | hmem'
  · exact charListLe_refl _
  · exact (List.sorted_cons.mp hs).1 m hmem'

/-! ### The cycle branch (claim C3) -/

lemma sortAux_cycle_last :
    ∀ (fuel : Nat) (ps : List (String × PackageDecorator)) (i : Nat) (s : String),
    (sortAux fuel ps).get? i = some (none, TopoPayload.cycleNames s) →
    i + 1 = (sortAux fuel ps).length := by
  intro fuel
  induction fuel with
  | zero => intro ps i s h; simp [sortAux] at h
  | succ fuel ih =>
    intro ps i s h
    by_cases hps : ps.isEmpty = true
    · simp [sortAux, hps] at h
    · have hps' : ps.isEmpty = false := by simpa using hps
      rcases hhead : (sortStrings (candidatePool ps)).head? with _ | n
      · simp only [sortAux, hps', Bool.false_eq_true, if_false, hhead] at h ⊢
        cases i with
        | zero => rfl
        | succ i => simp at h
      · rcases hlook : lookupDecorator n ps with _ | d
        · simp only [sortAux, hps', Bool.false_eq_true, if_false, hhead, hlook] at h
          simp at h
        · simp only [sortAux, hps', Bool.false_eq_true, if_false, hhead, hlook] at h ⊢
          cases i with
          | zero => simp at h
          | succ i =>
            rw [List.get?_cons_succ] at h
            rw [List.length_cons, ← ih _ i s h]

/-- C3: whenever the scheduling loop reaches a non-empty remaining set with no
ready package, it emits exactly one terminal record — location key `None`,
payload the remaining keys sorted alphabetically and joined with ", " — and
nothing further (first conjunct); and a sentinel record is always the last
entry of the output (second conjunct). -/
theorem C3_cycle_sentinel_terminal :
    (∀ ps : List (String × PackageDecorator), ps ≠ [] →
      (∀ e ∈ ps, e.2.depends_for_topological_order ≠ ∅) →
      _sort_decorated_packages ps =
        [(none, TopoPayload.cycleNames
          (String.intercalate ", " (sortStrings (ps.map Prod.fst))))]) ∧
    (∀ (ps : List (String × PackageDecorator)) (i : Nat) (s : String),
      (_sort_decorated_packages ps).get? i = some (none, TopoPayload.cycleNames s) →
      i + 1 = (_sort_decorated_packages ps).length) := by
  constructor
  · intro ps hne hcyc
    obtain ⟨e, t, rfl⟩ : ∃ e t, ps = e :: t := by
      cases ps with
      | nil => exact absurd rfl hne
      | cons e t => exact ⟨e, t, rfl⟩
    have hpool : candidatePool (e :: t) = [] := candidatePool_eq_nil_iff.mpr hcyc
    show sortAux ((e :: t).length) (e :: t) = _
    rw [List.length_cons]
    simp only [sortAux, List.isEmpty_cons, Bool.false_eq_true, if_false, hpool]
    rfl
  · intro ps i s h
    exact sortAux_cycle_last ps.length ps i s h

/-- Witness for C3: the cycle fixture yields exactly the one sentinel record
with the alphabetically sorted, comma-space-joined remaining names. -/
theorem C3_cycle_sentinel_terminal_witness :
    _sort_decorated_packages c3Cycle = [(none, TopoPayload.cycleNames "a, b, c")] := by
  have h := C3_cycle_sentinel_terminal.1 c3Cycle (by decide) (by decide)
  rw [h]
  rfl

/-! ### The emission step (claims C4 and C6) -/

/-- Unfolding one normal iteration of the scheduling loop. -/
lemma sortAux_head_step {ps : List (String × PackageDecorator)} (fuel : Nat)
    {n : String} {t : List String}
    (hhead : sortStrings (candidatePool ps) = n :: t) (hne : ps.isEmpty = false)
    {d : PackageDecorator} (hlook : lookupDecorator n ps = some d) :
    sortAux (fuel+1) ps =
      (some d.path, TopoPayload.pkg d.package) :: sortAux fuel (removeDep n (eraseKey n ps)) := by
  simp only [sortAux, hne, Bool.false_eq_true, if_false, hhead, List.head?_cons, hlook]

/-- The fuel `ps.length` is exact: any fuel at least the number of remaining
packages yields the same run, so the fuelled loop agrees with the source's
unbounded `while` loop. -/
lemma sortAux_fuel_irrelevant :
    ∀ (f1 : Nat) (ps : List (String × PackageDecorator)) (f2 : Nat),
    ps.length ≤ f1 → ps.length ≤ f2 → sortAux f1 ps = sortAux f2 ps := by
  intro f1
  induction f1 with
  | zero =>
    intro ps f2 h1 _
    have hnil : ps = [] := List.length_eq_zero.mp (Nat.le_zero.mp h1)
    subst hnil
    cases f2 with
    | zero => rfl
    | succ f2 => simp [sortAux]
  | succ f1 ih =>
    intro ps f2 h1 h2
    by_cases hps : ps.isEmpty = true
    · have hnil : ps = [] := List.isEmpty_iff.mp hps
      subst hnil
      cases f2 with
      | zero => simp [sortAux]
      | succ f2 => simp [sortAux]
    · have hps' : ps.isEmpty = false := by simpa using hps
      have hlen : 1 ≤ ps.length := by
        cases ps
        · simp at hps
        · simp
      obtain ⟨g2, rfl⟩ : ∃ g2, f2 = g2 + 1 := by
        cases f2 with
        | zero => omega
        | succ g2 => exact ⟨g2, rfl⟩
      rcases hsrt : sortStrings (candidatePool ps) with _ | ⟨n₀, t⟩
      · simp only [sortAux, hps', Bool.false_eq_true, if_false, hsrt, List.head?_nil]
      · rcases hlook : lookupDecorator n₀ ps with _ | d₀
        · simp only [sortAux, hps', Bool.false_eq_true, if_false, hsrt, List.head?_cons, hlook]
        · have h3 : (eraseKey n₀ ps).length < ps.length :=
            eraseKey_length_lt (List.mem_map.mpr ⟨(n₀, d₀), lookupDecorator_mem hlook, rfl⟩)
          have h4 : (removeDep n₀ (eraseKey n₀ ps)).length = (eraseKey n₀ ps).length := by
            simp [removeDep]
          rw [sortAux_head_step f1 hsrt hps' hlook, sortAux_head_step g2 hsrt hps' hlook]
          congr 1
          exact ih _ g2 (by omega) (by omega)

/-- C4: at any state of the scheduling loop in which some ready package (empty
pending closure) has a truthy message-generator flag, the entry emitted at
that iteration is one whose decorator has a truthy message-generator flag. -/
theorem C4_generator_priority (ps : List (String × PackageDecorator))
    (hnd : (ps.map Prod.fst).Nodup)
    (hgen : ∃ e ∈ ps, e.2.depends_for_topological_order = ∅ ∧
      pyTruthyStr e.2.message_generator = true) :
    ∃ n d rest, lookupDecorator n ps = some d ∧
      pyTruthyStr d.message_generator = true ∧
      _sort_decorated_packages ps = (some d.path, TopoPayload.pkg d.package) :: rest := by
  obtain ⟨e, he, hdep, htr⟩ := hgen
  have hne : ps.isEmpty = false := by
    cases ps
    · simp at he
    · simp
  obtain ⟨k, hL⟩ : ∃ k, ps.length = k + 1 := by
    cases ps
    · simp at he
    · exact ⟨_, rfl⟩
  have hmg : e.1 ∈ readyMessageGenerators ps :=
    mem_readyMessageGenerators.mpr ⟨e.2, by simpa using he, hdep, htr⟩
  have hmgne : readyMessageGenerators ps ≠ [] := List.ne_nil_of_mem hmg
  have hpool : candidatePool ps = readyMessageGenerators ps := by
    unfold candidatePool
    rw [if_neg (by simpa [List.isEmpty_iff] using hmgne)]
  rcases hhead : sortStrings (candidatePool ps) with _ | ⟨n, t⟩
  · exact absurd (hpool ▸ sortStrings_eq_nil_iff.mp hhead) hmgne
  · have hn : n ∈ candidatePool ps := mem_sortStrings.mp (hhead ▸ List.mem_cons_self n t)
    rw [hpool] at hn
    obtain ⟨d, hd, _, htr'⟩ := mem_readyMessageGenerators.mp hn
    have hlook : lookupDecorator n ps = some d := lookupDecorator_of_mem_nodup hnd hd
    refine ⟨n, d, sortAux k (removeDep n (eraseKey n ps)), hlook, htr', ?_⟩
    show sortAux ps.length ps = _
    rw [hL]
    exact sortAux_head_step k hhead hne hlook

/-- Witness for C4 at the concrete fixture. -/
theorem C4_generator_priority_witness :
    ((c4Pkgs.map Prod.fst).Nodup ∧
      ∃ e ∈ c4Pkgs, e.2.depends_for_topological_order = ∅ ∧
        pyTruthyStr e.2.message_generator = true) ∧
    (∃ n d rest, lookupDecorator n c4Pkgs = some d ∧
      pyTruthyStr d.message_generator = true ∧
      _sort_decorated_packages c4Pkgs = (some d.path, TopoPayload.pkg d.package) :: rest) :=
  ⟨⟨by decide, by decide⟩, C4_generator_priority c4Pkgs (by decide) (by decide)⟩

/-- C6: at any state of the scheduling loop with at least one ready package,
the entry emitted at that iteration is the candidate-pool member with the
lexicographically smallest name. -/
theorem C6_alphabetic_tie_break (ps : List (String × PackageDecorator))
    (hnd : (ps.map Prod.fst).Nodup)
    (hready : ∃ e ∈ ps, e.2.depends_for_topological_order = ∅) :
    ∃ n d rest, n ∈ candidatePool ps ∧ (∀ m ∈ candidatePool ps, strLe n m = true) ∧
      lookupDecorator n ps = some d ∧
      _sort_decorated_packages ps = (some d.path, TopoPayload.pkg d.package) :: rest := by
  obtain ⟨e, he, hdep⟩ := hready
  have hne : ps.isEmpty = false := by
    cases ps
    · simp at he
    · simp
  obtain ⟨k, hL⟩ : ∃ k, ps.length = k + 1 := by
    cases ps
    · simp at he
    · exact ⟨_, rfl⟩
  have hpoolne : candidatePool ps ≠ [] := by
    intro hnil
    exact candidatePool_eq_nil_iff.mp hnil e he hdep
  rcases hhead : sortStrings (candidatePool ps) with _ | ⟨n, t⟩
  · exact absurd (sortStrings_eq_nil_iff.mp hhead) hpoolne
  · have hn : n ∈ candidatePool ps := mem_sortStrings.mp (hhead ▸ List.mem_cons_self n t)
    obtain ⟨d, hd, _⟩ := mem_candidatePool hn
    have hlook : lookupDecorator n ps = some d := lookupDecorator_of_mem_nodup hnd hd
    refine ⟨n, d, sortAux k (removeDep n (eraseKey n ps)), hn, sortStrings_head_le hhead, hlook, ?_⟩
    show sortAux ps.length ps = _
    rw [hL]
    exact sortAux_head_step k hhead hne hlook

/-- Witness for C6 at the concrete fixture. -/
theorem C6_alphabetic_tie_break_witness :
    ((c6Pkgs.map Prod.fst).Nodup ∧
      ∃ e ∈ c6Pkgs, e.2.depends_for_topological_order = ∅) ∧
    (∃ n d rest, n ∈ candidatePool c6Pkgs ∧ (∀ m ∈ candidatePool c6Pkgs, strLe n m = true) ∧
      lookupDecorator n c6Pkgs = some d ∧
      _sort_decorated_packages c6Pkgs = (some d.path, TopoPayload.pkg d.package) :: rest) :=
  ⟨⟨by decide, by decide⟩, C6_alphabetic_tie_break c6Pkgs (by decide) (by decide)⟩

/-! ### The dependency closure (claims C7 and C8) -/

/-- In a dict whose keys are the wrapped packages' names, a successful lookup
returns a decorator carrying the looked-up name. -/
lemma lookup_name {pkgs : List (String × PackageDecorator)}
    (hwf : ∀ e ∈ pkgs, e.2.package.name = e.1) {n : String} {q : PackageDecorator}
    (h : lookupDecorator n pkgs = some q) : q.package.name = n :=
  hwf (n, q) (lookupDecorator_mem h)

lemma lookup_isSome_iff_mem_keyFinset {n : String} {pkgs : List (String × PackageDecorator)} :
    (lookupDecorator n pkgs).isSome = true ↔ n ∈ keyFinset pkgs := by
  rw [lookupDecorator_isSome_iff, keyFinset, List.mem_toFinset]

lemma keyFinset_card_le (pkgs : List (String × PackageDecorator)) :
    (keyFinset pkgs).card ≤ pkgs.length := by
  calc (keyFinset pkgs).card ≤ (pkgs.map Prod.fst).length := List.toFinset_card_le _
  _ = pkgs.length := List.length_map _ _

/-- Every property preserved by each fold step holds of all elements of the
fold's result. -/
lemma foldl_finset_invariant (P : String → Prop) (f : Finset String → String → Finset String) :
    ∀ l : List String, (∀ acc b, b ∈ l → (∀ m ∈ acc, P m) → ∀ m ∈ f acc b, P m) →
    ∀ acc, (∀ m ∈ acc, P m) → ∀ m ∈ l.foldl f acc, P m := by
  intro l
  induction l with
  | nil => intro _ acc hacc m hm; exact hacc m (by simpa using hm)
  | cons b t ih =>
    intro hf acc hacc m hm
    rw [List.foldl_cons] at hm
    exact ih (fun acc' c hc => hf acc' c (List.mem_cons_of_mem _ hc))
      (f acc b) (hf acc b (List.mem_cons_self _ _) hacc) m hm

/-- A fold whose every step grows the accumulator contains the start set. -/
lemma foldl_finset_mono (f : Finset String → String → Finset String)
    (hf : ∀ acc b, acc ⊆ f acc b) :
    ∀ (l : List String) (acc : Finset String), acc ⊆ l.foldl f acc := by
  intro l
  induction l with
  | nil => intro acc; simp
  | cons b t ih =>
    intro acc
    rw [List.foldl_cons]
    exact Finset.Subset.trans (hf acc b) (ih (f acc b))

/-- `_add_recursive_run_depends` only ever adds to the set. -/
lemma addRunDependsFuel_mono (pkgs : List (String × PackageDecorator)) :
    ∀ (fuel : Nat) (d : PackageDecorator) (s : Finset String),
    s ⊆ addRunDependsFuel pkgs fuel d s := by
  intro fuel
  induction fuel with
  | zero => intro d s; exact Finset.Subset.refl s
  | succ fuel ih =>
    intro d s
    simp only [addRunDependsFuel]
    refine Finset.Subset.trans (Finset.subset_insert d.package.name s) ?_
    apply foldl_finset_mono
    intro acc b
    cases hl : lookupDecorator b pkgs with
    | none => exact Finset.Subset.refl acc
    | some q => exact ih q acc

/-- With at least one unit of fuel, the own name is added
(`depends_for_topological_order.add(self.package.name)`). -/
lemma addRunDependsFuel_mem_self (pkgs : List (String × PackageDecorator))
    (fuel : Nat) (d : PackageDecorator) (s : Finset String) :
    d.package.name ∈ addRunDependsFuel pkgs (fuel+1) d s := by
  simp only [addRunDependsFuel]
  refine foldl_finset_mono _ ?_ _ _ (Finset.mem_insert_self _ s)
  intro acc b
  cases hl : lookupDecorator b pkgs with
  | none => exact Finset.Subset.refl acc
  | some q => exact addRunDependsFuel_mono pkgs fuel q acc

/-- The recursion only ever adds names of known packages. -/
lemma addRunDependsFuel_subset_keys {pkgs : List (String × PackageDecorator)}
    (hwf : ∀ e ∈ pkgs, e.2.package.name = e.1) :
    ∀ (fuel : Nat) (d : PackageDecorator) (s : Finset String),
    d.package.name ∈ keyFinset pkgs →
    addRunDependsFuel pkgs fuel d s ⊆ s ∪ keyFinset pkgs := by
  intro fuel
  induction fuel with
  | zero => intro d s _; exact Finset.subset_union_left
  | succ fuel ih =>
    intro d s hd
    simp only [addRunDependsFuel]
    intro m hm
    refine foldl_finset_invariant (· ∈ s ∪ keyFinset pkgs) _ _ ?_ _ ?_ m hm
    · intro acc b hb hacc m' hm'
      cases hl : lookupDecorator b pkgs with
      | none => exact hacc m' (by rwa [hl] at hm')
      | some q =>
        rw [hl] at hm'
        have hbK : b ∈ keyFinset pkgs := by
          rw [← lookup_isSome_iff_mem_keyFinset, hl]
          rfl
        have hqK : q.package.name ∈ keyFinset pkgs := by
          rwa [lookup_name hwf hl]
        have := ih q acc hqK hm'
        rcases Finset.mem_union.mp this with h | h
        · exact hacc m' h
        · exact Finset.mem_union_right _ h
    · intro m' hm'
      rcases Finset.mem_insert.mp hm' with rfl | h
      · exact Finset.mem_union_right _ hd
      · exact Finset.mem_union_left _ h

/-- The computed closure only contains known package names. -/
lemma calculateDependsFuel_subset_keys {pkgs : List (String × PackageDecorator)}
    (hwf : ∀ e ∈ pkgs, e.2.package.name = e.1) (fuel : Nat) (d : PackageDecorator) :
    calculateDependsFuel pkgs fuel d ⊆ keyFinset pkgs := by
  unfold calculateDependsFuel
  intro m hm
  refine foldl_finset_invariant (· ∈ keyFinset pkgs) _ _ ?_ _ (by simp) m hm
  intro acc b hb hacc m' hm'
  cases hl : lookupDecorator b pkgs with
  | none => exact hacc m' (by rwa [hl] at hm')
  | some q =>
    rw [hl] at hm'
    have hqK : q.package.name ∈ keyFinset pkgs := by
      rw [lookup_name hwf hl, ← lookup_isSome_iff_mem_keyFinset, hl]
      rfl
    have := addRunDependsFuel_subset_keys hwf fuel q acc hqK hm'
    rcases Finset.mem_union.mp this with h | h
    · exact hacc m' h
    · exact h

/-- C7: a dependency name that is not a known package (no entry in the
decorator dict) never enters a computed `depends_for_topological_order`: it is
skipped at seeding time and at recursion time, and no error is raised (the
computation is total and simply excludes it). -/
theorem C7_external_names_never_in_closure (pkgs : List (String × PackageDecorator))
    (hwf : ∀ e ∈ pkgs, e.2.package.name = e.1) (d : PackageDecorator) (n : String)
    (h : lookupDecorator n pkgs = none) :
    n ∉ calculate_depends_for_topological_order pkgs d := by
  intro hmem
  have hK : n ∈ keyFinset pkgs :=
    calculateDependsFuel_subset_keys hwf (pkgs.length + 1) d hmem
  rw [← lookup_isSome_iff_mem_keyFinset, h] at hK
  simp at hK

/-- Witness for C7: the unknown name "ext" is absent from the closure. -/
theorem C7_external_names_never_in_closure_witness :
    (∀ e ∈ c7Pkgs, e.2.package.name = e.1) ∧
    lookupDecorator "ext" c7Pkgs = none ∧
    "ext" ∉ calculate_depends_for_topological_order c7Pkgs
      (mkPackageDecorator (mkSimplePackage "a" ["ext"] []) "pa") :=
  ⟨by decide, by decide,
    C7_external_names_never_in_closure c7Pkgs (by decide) _ "ext" (by decide)⟩

lemma addRunDependsFuel_succ (pkgs : List (String × PackageDecorator)) (fuel : Nat)
    (d : PackageDecorator) (s : Finset String) :
    addRunDependsFuel pkgs (fuel+1) d s =
      ((d.package.run_depends.map Dependency.name).filter
        (fun n => (lookupDecorator n pkgs).isSome &&
          !(decide (n ∈ insert d.package.name s)))).foldl
        (addRunStep pkgs fuel) (insert d.package.name s) := rfl

lemma calculateDependsFuel_eq (pkgs : List (String × PackageDecorator)) (fuel : Nat)
    (d : PackageDecorator) :
    calculateDependsFuel pkgs fuel d =
      (seedNames pkgs d).foldl (addRunStep pkgs fuel) ∅ := rfl

lemma closedExcept_mono {pkgs : List (String × PackageDecorator)} {s : Finset String}
    {E₁ E₂ : Set String} (hE : E₁ ⊆ E₂) (h : ClosedExcept pkgs s E₁) :
    ClosedExcept pkgs s E₂ :=
  fun n hn hnE b hb => h n hn (fun hmem => hnE (hE hmem)) b hb

/-- Everything the recursion adds is reachable from the starting package via
run-dependency steps (soundness). -/
lemma addRunDependsFuel_sound {pkgs : List (String × PackageDecorator)}
    (hwf : ∀ e ∈ pkgs, e.2.package.name = e.1) :
    ∀ (fuel : Nat) (d : PackageDecorator) (s : Finset String),
    lookupDecorator d.package.name pkgs = some d →
    ∀ m ∈ addRunDependsFuel pkgs fuel d s,
      m ∈ s ∨ Relation.ReflTransGen (runStep pkgs) d.package.name m := by
  intro fuel
  induction fuel with
  | zero => intro d s _ m hm; exact Or.inl hm
  | succ fuel ih =>
    intro d s hself m hm
    rw [addRunDependsFuel_succ] at hm
    refine foldl_finset_invariant
      (fun m => m ∈ s ∨ Relation.ReflTransGen (runStep pkgs) d.package.name m)
      _ _ ?_ _ ?_ m hm
    · intro acc b hb hacc m' hm'
      rw [List.mem_filter, Bool.and_eq_true] at hb
      obtain ⟨hbrun, hbS, _⟩ := hb
      obtain ⟨q, hq⟩ := Option.isSome_iff_exists.mp hbS
      rw [addRunStep, hq] at hm'
      have hqname : q.package.name = b := lookup_name hwf hq
      have hstep : runStep pkgs d.package.name b := ⟨d, hself, hbrun, hbS⟩
      rcases ih q acc (by rw [hqname]; exact hq) m' hm' with h | h
      · exact hacc m' h
      · rw [hqname] at h
        exact Or.inr (Relation.ReflTransGen.head hstep h)
    · intro m' hm'
      rcases Finset.mem_insert.mp hm' with rfl | h
      · exact Or.inr Relation.ReflTransGen.refl
      · exact Or.inl h

/-- The inner fold of one expansion step: starting from a closed-except set
that contains `s1`, it stays closed-except, grows, and ends up containing
every processed name.  `ih` is the induction hypothesis for one fuel level
lower. -/
lemma addRunFold_closed {pkgs : List (String × PackageDecorator)}
    (hwf : ∀ e ∈ pkgs, e.2.package.name = e.1) (fuel : Nat)
    (ih : ∀ (d : PackageDecorator) (s : Finset String) (E : Set String),
      (keyFinset pkgs \ insert d.package.name s).card < fuel →
      lookupDecorator d.package.name pkgs = some d →
      ClosedExcept pkgs s E →
      insert d.package.name s ⊆ addRunDependsFuel pkgs fuel d s ∧
      ClosedExcept pkgs (addRunDependsFuel pkgs fuel d s) (E \ {d.package.name}))
    (s1 : Finset String) (E' : Set String)
    (hcard : (keyFinset pkgs \ s1).card ≤ fuel) :
    ∀ ns : List String, (∀ n ∈ ns, (lookupDecorator n pkgs).isSome = true ∧ n ∉ s1) →
    ∀ acc : Finset String, s1 ⊆ acc → ClosedExcept pkgs acc E' →
    acc ⊆ ns.foldl (addRunStep pkgs fuel) acc ∧
    ClosedExcept pkgs (ns.foldl (addRunStep pkgs fuel) acc) E' ∧
    ∀ n ∈ ns, n ∈ ns.foldl (addRunStep pkgs fuel) acc := by
  intro ns
  induction ns with
  | nil =>
    intro _ acc _ hclo
    exact ⟨Finset.Subset.refl acc, by simpa using hclo, by simp⟩
  | cons n t iht =>
    intro hns acc hs1 hclo
    obtain ⟨hnS, hns1⟩ := hns n (List.mem_cons_self _ _)
    obtain ⟨q, hq⟩ := Option.isSome_iff_exists.mp hnS
    have hqname : q.package.name = n := lookup_name hwf hq
    have hnK : n ∈ keyFinset pkgs := lookup_isSome_iff_mem_keyFinset.mp hnS
    have hcard' : (keyFinset pkgs \ insert q.package.name acc).card < fuel := by
      rw [hqname]
      have hsub : keyFinset pkgs \ insert n acc ⊆ (keyFinset pkgs \ s1).erase n := by
        intro x hx
        rw [Finset.mem_sdiff] at hx
        rw [Finset.mem_erase, Finset.mem_sdiff]
        constructor
        · intro hxn
          exact hx.2 (hxn ▸ Finset.mem_insert_self n acc)
        · exact ⟨hx.1, fun hxs1 => hx.2 (Finset.mem_insert_of_mem (hs1 hxs1))⟩
      have h1 : ((keyFinset pkgs \ s1).erase n).card < (keyFinset pkgs \ s1).card := by
        apply Finset.card_erase_lt_of_mem
        rw [Finset.mem_sdiff]
        exact ⟨hnK, hns1⟩
      calc (keyFinset pkgs \ insert n acc).card
          ≤ ((keyFinset pkgs \ s1).erase n).card := Finset.card_le_card hsub
        _ < (keyFinset pkgs \ s1).card := h1
        _ ≤ fuel := hcard
    have hself : lookupDecorator q.package.name pkgs = some q := by
      rw [hqname]; exact hq
    obtain ⟨hins, hclo'⟩ := ih q acc E' hcard' hself hclo
    have hclo'' : ClosedExcept pkgs (addRunDependsFuel pkgs fuel q acc) E' :=
      closedExcept_mono Set.diff_subset hclo'
    have hstepeq : addRunStep pkgs fuel acc n = addRunDependsFuel pkgs fuel q acc := by
      simp [addRunStep, hq]
    have hs1' : s1 ⊆ addRunDependsFuel pkgs fuel q acc :=
      Finset.Subset.trans hs1
        (Finset.Subset.trans (Finset.subset_insert q.package.name acc) hins)
    obtain ⟨hmono, hcloF, hmemF⟩ := iht (fun m hm => hns m (List.mem_cons_of_mem _ hm))
      (addRunDependsFuel pkgs fuel q acc) hs1' hclo''
    rw [List.foldl_cons, hstepeq]
    refine ⟨Finset.Subset.trans (addRunDependsFuel_mono pkgs fuel q acc) hmono, hcloF, ?_⟩
    intro m hm
    rcases List.mem_cons.mp hm with rfl | hmt
    · exact hmono (hins (by rw [hqname]; exact Finset.mem_insert_self _ _))
    · exact hmemF m hmt

/-- One expansion step of `_add_recursive_run_depends` from a closed-except
set: the result contains the package's own name and everything it had, and is
closed-except with the package's name no longer pending. -/
lemma addRunDependsFuel_closed {pkgs : List (String × PackageDecorator)}
    (hwf : ∀ e ∈ pkgs, e.2.package.name = e.1) :
    ∀ (fuel : Nat) (d : PackageDecorator) (s : Finset String) (E : Set String),
    (keyFinset pkgs \ insert d.package.name s).card < fuel →
    lookupDecorator d.package.name pkgs = some d →
    ClosedExcept pkgs s E →
    insert d.package.name s ⊆ addRunDependsFuel pkgs fuel d s ∧
    ClosedExcept pkgs (addRunDependsFuel pkgs fuel d s) (E \ {d.package.name}) := by
  intro fuel
  induction fuel with
  | zero => intro d s E hcard _ _; exact absurd hcard (Nat.not_lt_zero _)
  | succ fuel ih =>
    intro d s E hcard hself hclosed
    rw [addRunDependsFuel_succ]
    have hclo1 : ClosedExcept pkgs (insert d.package.name s) (E ∪ {d.package.name}) := by
      intro n hn hnE b hb
      rcases Finset.mem_insert.mp hn with rfl | hns
      · exact absurd (Set.mem_union_right _ rfl) hnE
      · exact Finset.mem_insert_of_mem
          (hclosed n hns (fun hmem => hnE (Set.mem_union_left _ hmem)) b hb)
    have hns_prop : ∀ n ∈ (d.package.run_depends.map Dependency.name).filter
        (fun n => (lookupDecorator n pkgs).isSome &&
          !(decide (n ∈ insert d.package.name s))),
        (lookupDecorator n pkgs).isSome = true ∧ n ∉ insert d.package.name s := by
      intro n hn
      rw [List.mem_filter, Bool.and_eq_true] at hn
      exact ⟨hn.2.1, by simpa using hn.2.2⟩
    obtain ⟨hmono, hcloF, hmemF⟩ := addRunFold_closed hwf fuel ih
      (insert d.package.name s) (E ∪ {d.package.name}) (Nat.lt_succ_iff.mp hcard)
      _ hns_prop (insert d.package.name s) (Finset.Subset.refl _) hclo1
    refine ⟨hmono, ?_⟩
    intro n hn hnE b hb
    by_cases hnd : n = d.package.name
    · subst hnd
      obtain ⟨q', hq', hbrun, hbS⟩ := hb
      have hq'd : q' = d := by
        rw [hself] at hq'
        exact Option.some_injective _ hq'.symm
      subst hq'd
      by_cases hbs1 : b ∈ insert q'.package.name s
      · exact hmono hbs1
      · refine hmemF b ?_
        rw [List.mem_filter, Bool.and_eq_true]
        exact ⟨hbrun, hbS, by simpa using hbs1⟩
    · have hnE' : n ∉ E ∪ {d.package.name} := by
        intro hmem
        rcases hmem with h | h
        · exact hnE ⟨h, by simpa using hnd⟩
        · exact hnd h
      exact hcloF n hn hnE' b hb

/-- The computed closure is exactly the set of names reachable from the seeds
(the known direct build/buildtool dependencies) along known run-dependency
edges — for any fuel beyond the number of packages. -/
lemma calculateDependsFuel_char {pkgs : List (String × PackageDecorator)}
    (hwf : ∀ e ∈ pkgs, e.2.package.name = e.1) (d : PackageDecorator)
    (fuel : Nat) (hfuel : pkgs.length < fuel) :
    ∀ m, m ∈ calculateDependsFuel pkgs fuel d ↔
      ∃ a ∈ seedNames pkgs d, Relation.ReflTransGen (runStep pkgs) a m := by
  have hseedS : ∀ n ∈ seedNames pkgs d, (lookupDecorator n pkgs).isSome = true := by
    intro n hn
    rw [seedNames, List.mem_filter] at hn
    exact hn.2
  have hfold : ∀ l : List String, (∀ n ∈ l, (lookupDecorator n pkgs).isSome = true) →
      ∀ acc : Finset String, ClosedExcept pkgs acc ∅ →
      ClosedExcept pkgs (l.foldl (addRunStep pkgs fuel) acc) ∅ ∧
      acc ⊆ l.foldl (addRunStep pkgs fuel) acc ∧
      ∀ n ∈ l, n ∈ l.foldl (addRunStep pkgs fuel) acc := by
    intro l
    induction l with
    | nil =>
      intro _ acc hclo
      exact ⟨by simpa using hclo, Finset.Subset.refl acc, by simp⟩
    | cons n t iht =>
      intro hl acc hclo
      obtain ⟨q, hq⟩ := Option.isSome_iff_exists.mp (hl n (List.mem_cons_self _ _))
      have hqname : q.package.name = n := lookup_name hwf hq
      have hcard : (keyFinset pkgs \ insert q.package.name acc).card < fuel := by
        calc (keyFinset pkgs \ insert q.package.name acc).card
            ≤ (keyFinset pkgs).card := Finset.card_le_card (Finset.sdiff_subset)
          _ ≤ pkgs.length := keyFinset_card_le pkgs
          _ < fuel := hfuel
      have hself : lookupDecorator q.package.name pkgs = some q := by
        rw [hqname]; exact hq
      obtain ⟨hins, hclo'⟩ := addRunDependsFuel_closed hwf fuel q acc ∅ hcard hself hclo
      have hclo'' : ClosedExcept pkgs (addRunDependsFuel pkgs fuel q acc) ∅ := by
        rw [Set.empty_diff] at hclo'
        exact hclo'
      have hstepeq : addRunStep pkgs fuel acc n = addRunDependsFuel pkgs fuel q acc := by
        simp [addRunStep, hq]
      obtain ⟨hcloF, hmono, hmemF⟩ := iht (fun m hm => hl m (List.mem_cons_of_mem _ hm))
        (addRunDependsFuel pkgs fuel q acc) hclo''
      rw [List.foldl_cons, hstepeq]
      refine ⟨hcloF,
        Finset.Subset.trans (addRunDependsFuel_mono pkgs fuel q acc) hmono, ?_⟩
      intro m hm
      rcases List.mem_cons.mp hm with rfl | hmt
      · exact hmono (hins (by rw [hqname]; exact Finset.mem_insert_self _ _))
      · exact hmemF m hmt
  obtain ⟨hcloF, _, hmemF⟩ := hfold (seedNames pkgs d) hseedS ∅
    (fun n hn => absurd hn (Finset.not_mem_empty n))
  intro m
  constructor
  · intro hm
    rw [calculateDependsFuel_eq] at hm
    refine foldl_finset_invariant
      (fun m => ∃ a ∈ seedNames pkgs d, Relation.ReflTransGen (runStep pkgs) a m)
      _ _ ?_ _ (by simp) m hm
    · intro acc b hb hacc m' hm'
      rcases hl : lookupDecorator b pkgs with _ | q
      · rw [addRunStep, hl] at hm'
        exact hacc m' hm'
      · rw [addRunStep, hl] at hm'
        have hqname : q.package.name = b := lookup_name hwf hl
        rcases addRunDependsFuel_sound hwf fuel q acc
            (by rw [hqname]; exact hl) m' hm' with h | h
        · exact hacc m' h
        · exact ⟨b, hb, hqname ▸ h⟩
  · rintro ⟨a, ha, hrtg⟩
    have haF : a ∈ calculateDependsFuel pkgs fuel d := by
      rw [calculateDependsFuel_eq]
      exact hmemF a ha
    rw [calculateDependsFuel_eq]
    rw [calculateDependsFuel_eq] at haF
    induction hrtg with
    | refl => exact haF
    | tail hab hbc ihr => exact hcloF _ ihr (Set.not_mem_empty _) _ hbc

/-- C8: the single-package closure computation terminates despite run-time
dependency cycles — every fuel beyond the package count yields the same, fully
expanded set — and that set is exactly the seeds' reachability closure: all
known names reachable from a known direct build/buildtool dependency via the
effective run-time dependency view, restricted to known packages. -/
theorem C8_closure_termination_and_reachability (pkgs : List (String × PackageDecorator))
    (hwf : ∀ e ∈ pkgs, e.2.package.name = e.1) (d : PackageDecorator) :
    (∀ fuel, pkgs.length < fuel →
      calculateDependsFuel pkgs fuel d = calculate_depends_for_topological_order pkgs d) ∧
    (∀ m, m ∈ calculate_depends_for_topological_order pkgs d ↔
      ∃ a ∈ seedNames pkgs d, Relation.ReflTransGen (runStep pkgs) a m) := by
  constructor
  · intro fuel hf
    apply Finset.ext
    intro m
    rw [calculateDependsFuel_char hwf d fuel hf m]
    exact (calculateDependsFuel_char hwf d (pkgs.length+1) (Nat.lt_succ_self _) m).symm
  · exact calculateDependsFuel_char hwf d (pkgs.length+1) (Nat.lt_succ_self _)

/-- Witness for C8 on the cyclic fixture. -/
theorem C8_closure_termination_and_reachability_witness :
    (∀ e ∈ c8Pkgs, e.2.package.name = e.1) ∧
    ((∀ fuel, c8Pkgs.length < fuel →
      calculateDependsFuel c8Pkgs fuel (mkPackageDecorator (mkSimplePackage "x" ["a"] []) "px") =
        calculate_depends_for_topological_order c8Pkgs
          (mkPackageDecorator (mkSimplePackage "x" ["a"] []) "px")) ∧
    (∀ m, m ∈ calculate_depends_for_topological_order c8Pkgs
        (mkPackageDecorator (mkSimplePackage "x" ["a"] []) "px") ↔
      ∃ a ∈ seedNames c8Pkgs (mkPackageDecorator (mkSimplePackage "x" ["a"] []) "px"),
        Relation.ReflTransGen (runStep c8Pkgs) a m)) :=
  ⟨by decide, C8_closure_termination_and_reachability c8Pkgs (by decide)
    (mkPackageDecorator (mkSimplePackage "x" ["a"] []) "px")⟩

/-! ### Topological validity (claim C1) -/

/-- Main loop invariant: every normal entry of the run corresponds, through
its package name, to a decorator of the starting state, and every name of that
decorator's pending closure was emitted strictly earlier. -/
lemma sortAux_topological :
    ∀ (fuel : Nat) (ps : List (String × PackageDecorator)),
    ps.length ≤ fuel →
    (∀ e ∈ ps, e.2.package.name = e.1) →
    (ps.map Prod.fst).Nodup →
    ∀ (j : Nat) (pj : String) (q : Package),
    (sortAux fuel ps).get? j = some (some pj, TopoPayload.pkg q) →
    ∃ d, (q.name, d) ∈ ps ∧ pj = d.path ∧ q = d.package ∧
      ∀ n ∈ d.depends_for_topological_order,
        ∃ i, i < j ∧ ∃ pi r,
          (sortAux fuel ps).get? i = some (some pi, TopoPayload.pkg r) ∧ r.name = n := by
  intro fuel
  induction fuel with
  | zero =>
    intro ps _ _ _ j pj q hj
    simp [sortAux] at hj
  | succ fuel ih =>
    intro ps hlen hwf hnd j pj q hj
    by_cases hps : ps.isEmpty = true
    · simp [sortAux, hps] at hj
    · have hps' : ps.isEmpty = false := by simpa using hps
      rcases hsrt : sortStrings (candidatePool ps) with _ | ⟨n₀, t⟩
      · have hunfold : sortAux (fuel+1) ps = [(none, TopoPayload.cycleNames
            (String.intercalate ", " (sortStrings (ps.map Prod.fst))))] := by
          simp only [sortAux, hps', Bool.false_eq_true, if_false, hsrt, List.head?_nil]
        rw [hunfold] at hj
        cases j with
        | zero => simp at hj
        | succ j => simp at hj
      · rcases hlook : lookupDecorator n₀ ps with _ | d₀
        · have hunfold : sortAux (fuel+1) ps = [] := by
            simp only [sortAux, hps', Bool.false_eq_true, if_false, hsrt, List.head?_cons, hlook]
          rw [hunfold] at hj
          simp at hj
        · have hunfold := sortAux_head_step fuel hsrt hps' hlook
          have hmemd₀ : (n₀, d₀) ∈ ps := lookupDecorator_mem hlook
          have hd₀name : d₀.package.name = n₀ := hwf (n₀, d₀) hmemd₀
          rw [hunfold] at hj
          cases j with
          | zero =>
            rw [List.get?_cons_zero] at hj
            simp only [Option.some.injEq, Prod.mk.injEq, TopoPayload.pkg.injEq] at hj
            obtain ⟨hpj, hq⟩ := hj
            subst hpj
            subst hq
            have hn₀pool : n₀ ∈ candidatePool ps :=
              mem_sortStrings.mp (hsrt ▸ List.mem_cons_self n₀ t)
            obtain ⟨d', hd'mem, hd'dep⟩ := mem_candidatePool hn₀pool
            have hdd : d' = d₀ := pair_unique_of_nodup hnd hd'mem hmemd₀
            subst hdd
            refine ⟨d', by rw [hd₀name]; exact hd'mem, rfl, rfl, ?_⟩
            intro n hn
            rw [hd'dep] at hn
            exact absurd hn (Finset.not_mem_empty n)
          | succ j =>
            rw [List.get?_cons_succ] at hj
            have hn₀keys : n₀ ∈ ps.map Prod.fst :=
              List.mem_map.mpr ⟨(n₀, d₀), hmemd₀, rfl⟩
            have hlen' : (removeDep n₀ (eraseKey n₀ ps)).length ≤ fuel := by
              have h1 : (eraseKey n₀ ps).length < ps.length := eraseKey_length_lt hn₀keys
              have h2 : (removeDep n₀ (eraseKey n₀ ps)).length = (eraseKey n₀ ps).length := by
                simp [removeDep]
              omega
            have hwf' : ∀ e ∈ removeDep n₀ (eraseKey n₀ ps), e.2.package.name = e.1 := by
              intro e he
              rw [removeDep, List.mem_map] at he
              obtain ⟨e₀, he₀, rfl⟩ := he
              exact hwf e₀ (eraseKey_subset _ he₀)
            have hnd' : ((removeDep n₀ (eraseKey n₀ ps)).map Prod.fst).Nodup := by
              rw [removeDep_keys]
              exact eraseKey_keys_nodup hnd
            obtain ⟨d', hd'mem, hpj, hq, hclosure⟩ :=
              ih (removeDep n₀ (eraseKey n₀ ps)) hlen' hwf' hnd' j pj q hj
            obtain ⟨d, hdmem_erase, hdef⟩ := mem_removeDep hd'mem
            have hdmem : (q.name, d) ∈ ps := eraseKey_subset _ hdmem_erase
            have hqne : q.name ≠ n₀ := by
              have := (List.mem_filter.mp hdmem_erase).2
              simpa using this
            refine ⟨d, hdmem, by rw [hpj, hdef], by rw [hq, hdef], ?_⟩
            intro n hn
            by_cases hnn₀ : n = n₀
            · subst hnn₀
              refine ⟨0, Nat.succ_pos j, d₀.path, d₀.package, ?_, hd₀name⟩
              rw [hunfold]
              rfl
            · have hn' : n ∈ d'.depends_for_topological_order := by
                rw [hdef]
                exact Finset.mem_erase.mpr ⟨hnn₀, hn⟩
              obtain ⟨i, hi, pi, r, hget, hr⟩ := hclosure n hn'
              refine ⟨i + 1, by omega, pi, r, ?_, hr⟩
              rw [hunfold, List.get?_cons_succ]
              exact hget

/-- C1: topological validity of the emitted order — for every normal entry of
the output, every name of that package's initial pending closure that is a key
of the working set appears as an emitted package strictly earlier in the
sequence. -/
theorem C1_topological_validity (ps : List (String × PackageDecorator))
    (hwf : ∀ e ∈ ps, e.2.package.name = e.1)
    (hnd : (ps.map Prod.fst).Nodup)
    (j : Nat) (pj : String) (q : Package)
    (hj : (_sort_decorated_packages ps).get? j = some (some pj, TopoPayload.pkg q))
    (d : PackageDecorator) (hd : (q.name, d) ∈ ps)
    (n : String) (hn : n ∈ d.depends_for_topological_order)
    (_hmem : n ∈ ps.map Prod.fst) :
    ∃ i, i < j ∧ ∃ pi r, (_sort_decorated_packages ps).get? i =
      some (some pi, TopoPayload.pkg r) ∧ r.name = n := by
  obtain ⟨d', hd'mem, _, _, hclosure⟩ :=
    sortAux_topological ps.length ps (le_refl _) hwf hnd j pj q hj
  have hdd : d = d' := pair_unique_of_nodup hnd hd hd'mem
  subst hdd
  exact hclosure n hn

/-- Witness for C1: in the run `[a, b]`, entry `b` (position 1) has "a" in its
initial closure, and the package named "a" is emitted at position 0. -/
theorem C1_topological_validity_witness :
    ((∀ e ∈ c1Pkgs, e.2.package.name = e.1) ∧
      (c1Pkgs.map Prod.fst).Nodup ∧
      (_sort_decorated_packages c1Pkgs).get? 1 =
        some (some "pb", TopoPayload.pkg (mkSimplePackage "b" [] [])) ∧
      ("a" : String) ∈ (mkTestDecorator "b" "pb" ["a"] none).depends_for_topological_order ∧
      ("a" : String) ∈ c1Pkgs.map Prod.fst) ∧
    (∃ i, i < 1 ∧ ∃ pi r, (_sort_decorated_packages c1Pkgs).get? i =
      some (some pi, TopoPayload.pkg r) ∧ r.name = "a") :=
  ⟨⟨by decide, by decide, by decide, by decide, by decide⟩,
    C1_topological_validity c1Pkgs (by decide) (by decide) 1 "pb"
      (mkSimplePackage "b" [] []) (by decide)
      (mkTestDecorator "b" "pb" ["a"] none) (by decide) "a" (by decide) (by decide)⟩

/-! ### Underlay handling (claim C5) -/

lemma lookupDecorator_append_isSome {n : String} {a b : List (String × PackageDecorator)}
    (h : (lookupDecorator n b).isSome = true) :
    (lookupDecorator n (a ++ b)).isSome = true := by
  induction a with
  | nil => simpa using h
  | cons e t ih =>
    by_cases he : (e.1 == n) = true
    · simp [lookupDecorator, List.find?_cons, he]
    · simp only [lookupDecorator, List.cons_append, List.find?_cons, he] at ih ⊢
      simpa [lookupDecorator] using ih

/-- The decorators built by the filter loop carry their key as package name. -/
lemma buildDecoratorsAux_wf (all : List (String × Package)) (wl bl : Option (List String)) :
    ∀ (rest : List (String × Package)) (acc : List (String × PackageDecorator)),
    (∀ e ∈ acc, e.2.package.name = e.1) →
    ∀ decs, buildDecoratorsAux all wl bl rest acc = Except.ok decs →
    ∀ e ∈ decs, e.2.package.name = e.1 := by
  intro rest
  induction rest with
  | nil =>
    intro acc hacc decs h e he
    injection h with h2
    subst h2
    exact hacc e he
  | cons pe rest ih =>
    intro acc hacc decs h e he
    obtain ⟨path, package⟩ := pe
    simp only [buildDecoratorsAux] at h
    split at h
    · exact ih _ hacc decs h e he
    · split at h
      · exact ih _ hacc decs h e he
      · split at h
        · refine ih _ ?_ decs h e he
          intro e' he'
          rcases List.mem_append.mp he' with h1 | h1
          · exact hacc e' h1
          · have he'' : e' = (package.name, mkPackageDecorator package path) := by
              simpa using h1
            rw [he'']
            rfl
        · split at h <;> cases h

/-- Underlay decorators carry their key as package name. -/
lemma underlayDecorators_wf (decorators : List (String × PackageDecorator))
    (underlay : List (String × Package)) :
    ∀ e ∈ underlayDecorators decorators underlay, e.2.package.name = e.1 := by
  have hgen : ∀ (l : List (String × Package)) (acc : List (String × PackageDecorator)),
      (∀ e ∈ acc, e.2.package.name = e.1) →
      ∀ e ∈ l.foldl (fun acc e =>
        if (lookupDecorator e.2.name decorators).isSome ||
            (lookupDecorator e.2.name acc).isSome
        then acc
        else acc ++ [(e.2.name, mkPackageDecorator e.2 e.1)]) acc,
      e.2.package.name = e.1 := by
    intro l
    induction l with
    | nil => intro acc hacc e he; exact hacc e he
    | cons pe t ih =>
      intro acc hacc e he
      rw [List.foldl_cons] at he
      refine ih _ ?_ e he
      split
      · exact hacc
      · intro e' he'
        rcases List.mem_append.mp he' with h1 | h1
        · exact hacc e' h1
        · have he'' : e' = (pe.2.name, mkPackageDecorator pe.2 pe.1) := by simpa using h1
          rw [he'']
          rfl
  exact hgen underlay [] (by simp)

/-- A seed of the closure computation ends up in the computed closure. -/
lemma seed_mem_calculateDependsFuel {pkgs : List (String × PackageDecorator)}
    (hwf : ∀ e ∈ pkgs, e.2.package.name = e.1) (d : PackageDecorator) (fuel : Nat) :
    ∀ n ∈ seedNames pkgs d, n ∈ calculateDependsFuel pkgs (fuel+1) d := by
  have hseedS : ∀ m ∈ seedNames pkgs d, (lookupDecorator m pkgs).isSome = true := by
    intro m hm
    rw [seedNames, List.mem_filter] at hm
    exact hm.2
  have hstep_mono : ∀ (acc : Finset String) (b : String),
      acc ⊆ addRunStep pkgs (fuel+1) acc b := by
    intro acc b
    rw [addRunStep]
    cases hl : lookupDecorator b pkgs with
    | none => exact Finset.Subset.refl acc
    | some q => exact addRunDependsFuel_mono pkgs (fuel+1) q acc
  have hstep_mem : ∀ (acc : Finset String) (m : String),
      (lookupDecorator m pkgs).isSome = true → m ∈ addRunStep pkgs (fuel+1) acc m := by
    intro acc m hm
    obtain ⟨q, hq⟩ := Option.isSome_iff_exists.mp hm
    have hqname := lookup_name hwf hq
    rw [addRunStep, hq, ← hqname]
    exact addRunDependsFuel_mem_self pkgs fuel q acc
  have hfold : ∀ (l : List String), (∀ m ∈ l, (lookupDecorator m pkgs).isSome = true) →
      ∀ (acc : Finset String), ∀ n ∈ l, n ∈ l.foldl (addRunStep pkgs (fuel+1)) acc := by
    intro l
    induction l with
    | nil => intro _ acc n hn; simp at hn
    | cons b t ih =>
      intro hl acc n hn
      rw [List.foldl_cons]
      rcases List.mem_cons.mp hn with rfl | hnt
      · exact foldl_finset_mono _ hstep_mono t _
          (hstep_mem acc n (hl n (List.mem_cons_self _ _)))
      · exact ih (fun m hm => hl m (List.mem_cons_of_mem _ hm)) _ n hnt
  intro n hn
  rw [calculateDependsFuel_eq]
  exact hfold (seedNames pkgs d) hseedS ∅ n hn

/-- C5 (modelled from the spec; the underlay handling is exercised by the
repository's tests but missing from this tree's `topological_order.py`): the
resolver takes an optional underlay of already-built packages; underlay
packages are visible as dependency targets during closure computation — a
build/buildtool dependency of a working-set package that resolves in the
underlay enters that package's pending closure — and no underlay package ever
appears as an entry of the emitted output. -/
theorem C5_underlay_visible_but_not_emitted
    (packages : List (String × Package)) (wl bl : Option (List String))
    (underlay : List (String × Package)) (decs : List (String × PackageDecorator))
    (hdecs : buildDecoratorsAux packages wl bl packages [] = Except.ok decs) :
    (∀ out, topological_order_packages_with_underlay packages wl bl underlay = Except.ok out →
      ∀ e ∈ out, ∀ p : Package, e.2 = TopoPayload.pkg p →
        p.name ∉ (underlayDecorators decs underlay).map Prod.fst) ∧
    (∀ k d, (k, d) ∈ decs →
      ∀ dep ∈ d.package.build_depends ++ d.package.buildtool_depends,
      (lookupDecorator dep.name (underlayDecorators decs underlay)).isSome = true →
      dep.name ∈ calculate_depends_for_topological_order
        (decs ++ underlayDecorators decs underlay) d) := by
  constructor
  · intro out hok e he p hp
    have hout : topological_order_packages_with_underlay packages wl bl underlay =
        Except.ok ((_sort_decorated_packages
            (decorateAll (decs ++ underlayDecorators decs underlay))).filter
          (entryNotFromUnderlay ((underlayDecorators decs underlay).map Prod.fst))) := by
      rw [topological_order_packages_with_underlay, hdecs]
    rw [hout] at hok
    injection hok with hout2
    subst hout2
    have hcond := (List.mem_filter.mp he).2
    rw [entryNotFromUnderlay, hp] at hcond
    simpa using hcond
  · intro k d hkd dep hdep hU
    have hwfc : ∀ e ∈ decs ++ underlayDecorators decs underlay, e.2.package.name = e.1 := by
      intro e he
      rcases List.mem_append.mp he with h | h
      · exact buildDecoratorsAux_wf packages wl bl packages [] (by simp) decs hdecs e h
      · exact underlayDecorators_wf decs underlay e h
    have hseed : dep.name ∈ seedNames (decs ++ underlayDecorators decs underlay) d := by
      rw [seedNames, List.mem_filter]
      exact ⟨List.mem_map.mpr ⟨dep, hdep, rfl⟩, lookupDecorator_append_isSome hU⟩
    exact seed_mem_calculateDependsFuel hwfc d _ dep.name hseed

/-- Witness for C5 at the test fixture. -/
theorem C5_underlay_visible_but_not_emitted_witness :
    (buildDecoratorsAux c5Packages none none c5Packages [] = Except.ok c5Decs) ∧
    ((∀ out, topological_order_packages_with_underlay c5Packages none none c5Underlay =
        Except.ok out →
      ∀ e ∈ out, ∀ p : Package, e.2 = TopoPayload.pkg p →
        p.name ∉ (underlayDecorators c5Decs c5Underlay).map Prod.fst) ∧
    (∀ k d, (k, d) ∈ c5Decs →
      ∀ dep ∈ d.package.build_depends ++ d.package.buildtool_depends,
      (lookupDecorator dep.name (underlayDecorators c5Decs c5Underlay)).isSome = true →
      dep.name ∈ calculate_depends_for_topological_order
        (c5Decs ++ underlayDecorators c5Decs c5Underlay) d)) :=
  ⟨rfl,
    C5_underlay_visible_but_not_emitted c5Packages none none c5Underlay c5Decs rfl⟩

end CatkinPkg
